import Mathlib

/-!
Verification development for the numerical-methods repository (main.py).

The program integrates the ODE given by get_y_prime with three fixed-step
one-step methods (Euler, improved Euler, classical Runge-Kutta 4), records
per-point local and global truncation errors, and sweeps over step counts
to study convergence of the maximal global error.

The embedding below follows the Python source:
  - DifferentialEquation.get_y_prime / get_y            -> get_y_prime, get_y
  - NumericalMethod.get_gte / get_lte                   -> get_gte, get_lte
  - NumericalMethod.method_implementation (while loop)  -> method_loop,
    method_implementation (list of trajectory points), and
    method_implementation_max_gte (the with_gte_max = True return value)
  - NumericalMethod.gte_investigation                   -> gte_investigation
  - EulerMethod.euler_next, ImproverEuler.improved_euler_next,
    RungeKutta.runge_kutta_next                         -> euler_next,
    improved_euler_next, runge_kutta_next (the stored self.step becomes the
    explicit first argument self_step)

Machine floating point is modelled by exact arithmetic in a linear ordered
field (instantiated at the real numbers for the concrete equation).  The
Python while loop `while k <= self.differential_equation.x + step` runs
forever when step <= 0; the Lean function method_loop carries the extra
guard 0 < step only to be total, and the lemma about loop_cond below makes
the divergence of the original loop for step < 0 explicit.
-/

namespace NumMethod

/-- One recorded trajectory point: x, the approximate y, and the local and
global truncation errors recorded at that point. -/
structure TrajPoint (α : Type) where
  x : α
  y : α
  lte : α
  gte : α
  deriving Repr, DecidableEq

/-- NumericalMethod.get_gte: absolute deviation of the current value from
the exact value. -/
def get_gte {α : Type} [LinearOrderedField α] (y_current y_exact : α) : α :=
  |y_exact - y_current|

/-- NumericalMethod.get_lte: absolute deviation of the one-step-from-exact
value from the exact value. -/
def get_lte {α : Type} [LinearOrderedField α] (y_from_exact y_exact : α) : α :=
  |y_exact - y_from_exact|

/-- The guard of the Python while loop: `k <= x + step` where x is the right
endpoint of the interval (xEnd). -/
def loop_cond {α : Type} [LinearOrderedField α] (xEnd step k : α) : Prop :=
  k ≤ xEnd + step

instance {α : Type} [LinearOrderedField α] (xEnd step k : α) :
    Decidable (loop_cond xEnd step k) :=
  inferInstanceAs (Decidable (k ≤ xEnd + step))

/-- The body of NumericalMethod.method_implementation after the seed point:
the while loop.  e is DifferentialEquation.get_y (the exact solution), f is
the calculate_next argument.  Each iteration computes
y_next = f x_prev y_prev, records the point at x_next = k with
gte = |e k - y_next| and lte = |e k - f x_prev (e x_prev)|, then advances
k by step.  The conjunct 0 < step in the guard is not in the Python code;
it only makes the recursion well founded (for step <= 0 the Python loop
never terminates once entered). -/
def method_loop {α : Type} [LinearOrderedField α] [FloorRing α]
    (e : α → α) (f : α → α → α) (xEnd step k x_prev y_prev : α) :
    List (TrajPoint α) :=
  if h : 0 < step ∧ loop_cond xEnd step k then
    { x := k, y := f x_prev y_prev,
      lte := get_lte (f x_prev (e x_prev)) (e k),
      gte := get_gte (f x_prev y_prev) (e k) } ::
      method_loop e f xEnd step (k + step) k (f x_prev y_prev)
  else []
termination_by (⌊(xEnd + step - k) / step⌋ + 1).toNat
decreasing_by
  obtain ⟨hs, hk⟩ := h
  have hk' : k ≤ xEnd + step := hk
  have ht : (0 : α) ≤ (xEnd + step - k) / step := div_nonneg (by linarith) hs.le
  have h0 : 0 ≤ ⌊(xEnd + step - k) / step⌋ := Int.floor_nonneg.mpr ht
  have hne : step ≠ 0 := hs.ne'
  have he : (xEnd + step - (k + step)) / step = (xEnd + step - k) / step - 1 := by
    field_simp
    ring
  rw [he, Int.floor_sub_one]
  omega

/-- NumericalMethod.method_implementation, point-sequence view: the seed
point at x0 (with lte = gte = |e x0 - y0|) followed by the loop points.
The with_print flag in the Python code only prints and plots this same
sequence, and the with_gte_max flag only selects the gte components; both
modes share this stepping logic. -/
def method_implementation {α : Type} [LinearOrderedField α] [FloorRing α]
    (e : α → α) (x0 xEnd y0 : α) (f : α → α → α) (step : α) :
    List (TrajPoint α) :=
  { x := x0, y := y0,
    lte := get_lte y0 (e x0),
    gte := get_gte y0 (e x0) } ::
    method_loop e f xEnd step (x0 + step) x0 y0

/-- NumericalMethod.method_implementation with with_gte_max = True: the
Python code appends the seed gte and every loop gte to gte_arr and returns
max(gte_arr); the fold below is that maximum (gte_arr is never empty since
the seed gte is always appended first). -/
def method_implementation_max_gte {α : Type} [LinearOrderedField α] [FloorRing α]
    (e : α → α) (x0 xEnd y0 : α) (f : α → α → α) (step : α) : α :=
  ((method_loop e f xEnd step (x0 + step) x0 y0).map
      (fun p => p.gte)).foldl max (get_gte y0 (e x0))

/-- The index sequence of the sweep: Python range(n, 1, -1),
that is [n, n-1, ..., 2] (empty for n < 2). -/
def sweep_counts (n : ℕ) : List ℕ :=
  (List.range (n - 1)).map (fun j => n - j)

/-- NumericalMethod.gte_investigation: for i in range(n, 1, -1), derive
step = (xEnd - x0) / i and run method_implementation with with_gte_max,
emitting one (step, max_gte) sample per i.  Note that the Python caller
passes a bound method as calculate_next, so f is the same function for
every i: any step stored inside f is not replaced by the derived step. -/
def gte_investigation {α : Type} [LinearOrderedField α] [FloorRing α]
    (e : α → α) (x0 xEnd y0 : α) (f : α → α → α) (n : ℕ) : List (α × α) :=
  (sweep_counts n).map (fun (i : ℕ) =>
    ((xEnd - x0) / (i : α),
      method_implementation_max_gte e x0 xEnd y0 f ((xEnd - x0) / (i : α))))

/-- DifferentialEquation.get_y_prime: y / x + x * cos x.  In the reals of
Lean, division by zero returns zero, whereas the Python expression raises
ZeroDivisionError at x = 0; the checked variant below models that. -/
noncomputable def get_y_prime (x y : ℝ) : ℝ :=
  y / x + x * Real.cos x

/-- DifferentialEquation.get_y: the exact solution x * sin x + 1. -/
noncomputable def get_y (x : ℝ) : ℝ :=
  x * Real.sin x + 1

/-- Fallibility model of DifferentialEquation.get_y_prime: the Python
division y / x raises ZeroDivisionError when x = 0, modelled as none. -/
noncomputable def get_y_prime_checked (x y : ℝ) : Option ℝ :=
  if x = 0 then none else some (get_y_prime x y)

/-- EulerMethod.euler_next; self_step is the step stored in the object at
construction time (self.step). -/
noncomputable def euler_next (self_step x_prev y_prev : ℝ) : ℝ :=
  y_prev + self_step * get_y_prime x_prev y_prev

/-- ImproverEuler.improved_euler_next; self_step is self.step. -/
noncomputable def improved_euler_next (self_step x_prev y_prev : ℝ) : ℝ :=
  y_prev + self_step *
    get_y_prime (x_prev + self_step / 2)
      (y_prev + self_step / 2 * get_y_prime x_prev y_prev)

/-- RungeKutta.runge_kutta_next; self_step is self.step. -/
noncomputable def runge_kutta_next (self_step x_prev y_prev : ℝ) : ℝ :=
  let k1 := get_y_prime x_prev y_prev
  let k2 := get_y_prime (x_prev + self_step / 2) (y_prev + self_step * k1 / 2)
  let k3 := get_y_prime (x_prev + self_step / 2) (y_prev + self_step * k2 / 2)
  let k4 := get_y_prime (x_prev + self_step) (y_prev + self_step * k3)
  let k_sum := k1 + 2 * k2 + 2 * k3 + k4
  y_prev + self_step / 6 * k_sum

section LoopLemmas

variable {α : Type} [LinearOrderedField α] [FloorRing α]

/-- Unfolding of method_loop when the guard holds. -/
lemma method_loop_pos (e : α → α) (f : α → α → α) (xEnd step k x_prev y_prev : α)
    (hs : 0 < step) (hk : loop_cond xEnd step k) :
    method_loop e f xEnd step k x_prev y_prev =
      { x := k, y := f x_prev y_prev,
        lte := get_lte (f x_prev (e x_prev)) (e k),
        gte := get_gte (f x_prev y_prev) (e k) } ::
        method_loop e f xEnd step (k + step) k (f x_prev y_prev) := by
  rw [method_loop]
  rw [dif_pos ⟨hs, hk⟩]

/-- Unfolding of method_loop when the guard fails. -/
lemma method_loop_neg (e : α → α) (f : α → α → α) (xEnd step k x_prev y_prev : α)
    (h : ¬(0 < step ∧ loop_cond xEnd step k)) :
    method_loop e f xEnd step k x_prev y_prev = [] := by
  rw [method_loop]
  rw [dif_neg h]

/-- Length of the loop output: with a positive step, the loop from k emits
exactly ⌊(xEnd + step - k) / step⌋ + 1 points (0 when that value is not
positive).  The proof follows the recursion, one point per iteration. -/
lemma length_method_loop (e : α → α) (f : α → α → α) (xEnd step : α)
    (hs : 0 < step) :
    ∀ (n : ℕ) (k x_prev y_prev : α),
      (⌊(xEnd + step - k) / step⌋ + 1).toNat = n →
      (method_loop e f xEnd step k x_prev y_prev).length = n := by
  intro n
  induction n with
  | zero =>
    intro k x_prev y_prev hn
    have h1 : ⌊(xEnd + step - k) / step⌋ + 1 ≤ 0 := by omega
    have h2 : ¬ loop_cond xEnd step k := by
      intro hk
      have hk' : k ≤ xEnd + step := hk
      have ht : (0 : α) ≤ (xEnd + step - k) / step :=
        div_nonneg (by linarith) hs.le
      have h0 : 0 ≤ ⌊(xEnd + step - k) / step⌋ := Int.floor_nonneg.mpr ht
      omega
    rw [method_loop_neg e f xEnd step k x_prev y_prev (by tauto)]
    rfl
  | succ n ih =>
    intro k x_prev y_prev hn
    have h1 : 0 ≤ ⌊(xEnd + step - k) / step⌋ := by omega
    have ht : (0 : α) ≤ (xEnd + step - k) / step := Int.floor_nonneg.mp h1
    have hk : loop_cond xEnd step k := by
      show k ≤ xEnd + step
      by_contra hlt
      push_neg at hlt
      have : (xEnd + step - k) / step < 0 :=
        div_neg_of_neg_of_pos (by linarith) hs
      linarith
    rw [method_loop_pos e f xEnd step k x_prev y_prev hs hk]
    rw [List.length_cons]
    congr 1
    apply ih
    have hne : step ≠ 0 := hs.ne'
    have he : (xEnd + step - (k + step)) / step = (xEnd + step - k) / step - 1 := by
      field_simp
      ring
    rw [he, Int.floor_sub_one]
    omega

/-- Length of the full trajectory: the seed point plus
⌊(xEnd - x0) / step⌋ + 1 loop points, for 0 < step and x0 ≤ xEnd. -/
lemma length_method_implementation (e : α → α) (f : α → α → α)
    (x0 xEnd y0 step : α) (hs : 0 < step) (hx : x0 ≤ xEnd) :
    (method_implementation e x0 xEnd y0 f step).length =
      (⌊(xEnd - x0) / step⌋).toNat + 2 := by
  have ht : (0 : α) ≤ (xEnd - x0) / step := div_nonneg (by linarith) hs.le
  have h0 : 0 ≤ ⌊(xEnd - x0) / step⌋ := Int.floor_nonneg.mpr ht
  have hme : (xEnd + step - (x0 + step)) / step = (xEnd - x0) / step := by
    ring_nf
  rw [method_implementation, List.length_cons,
    length_method_loop e f xEnd step hs ((⌊(xEnd - x0) / step⌋).toNat + 1)
      (x0 + step) x0 y0 (by rw [hme]; omega)]

/-- The first loop point, when it exists: it sits at x = k, carries
y = f x_prev y_prev, and its lte is the one-step-from-exact deviation
taken from x_prev. -/
lemma method_loop_first (e : α → α) (f : α → α → α)
    (xEnd step k x_prev y_prev : α) (p : TrajPoint α)
    (hp : (method_loop e f xEnd step k x_prev y_prev).get? 0 = some p) :
    p = { x := k, y := f x_prev y_prev,
          lte := get_lte (f x_prev (e x_prev)) (e k),
          gte := get_gte (f x_prev y_prev) (e k) } := by
  by_cases h : 0 < step ∧ loop_cond xEnd step k
  · rw [method_loop_pos e f xEnd step k x_prev y_prev h.1 h.2] at hp
    simpa using hp.symm
  · rw [method_loop_neg e f xEnd step k x_prev y_prev h] at hp
    simp at hp

/-- Consecutive loop points: the lte recorded at a point equals the
absolute deviation of one f step started from the exact value at the
previous point. -/
lemma method_loop_lte_chain (e : α → α) (f : α → α → α) (xEnd step : α) :
    ∀ (i : ℕ) (k x_prev y_prev : α) (p q : TrajPoint α),
      (method_loop e f xEnd step k x_prev y_prev).get? (i + 1) = some p →
      (method_loop e f xEnd step k x_prev y_prev).get? i = some q →
      p.lte = |e p.x - f q.x (e q.x)| := by
  intro i
  induction i with
  | zero =>
    intro k x_prev y_prev p q hp hq
    by_cases h : 0 < step ∧ loop_cond xEnd step k
    · rw [method_loop_pos e f xEnd step k x_prev y_prev h.1 h.2] at hp hq
      rw [List.get?_cons_succ] at hp
      rw [List.get?_cons_zero] at hq
      have hq' := Option.some.inj hq
      have hp' := method_loop_first e f xEnd step (k + step) k
        (f x_prev y_prev) p hp
      rw [hp', ← hq']
      simp [get_lte, get_gte]
    · rw [method_loop_neg e f xEnd step k x_prev y_prev h] at hp
      simp at hp
  | succ n ih =>
    intro k x_prev y_prev p q hp hq
    by_cases h : 0 < step ∧ loop_cond xEnd step k
    · rw [method_loop_pos e f xEnd step k x_prev y_prev h.1 h.2] at hp hq
      rw [List.get?_cons_succ] at hp hq
      exact ih (k + step) k (f x_prev y_prev) p q hp hq
    · rw [method_loop_neg e f xEnd step k x_prev y_prev h] at hp
      simp at hp

end LoopLemmas

/-- The seed of a left fold with max is a lower bound of the result. -/
lemma le_foldl_max {α : Type} [LinearOrder α] (l : List α) :
    ∀ a : α, a ≤ l.foldl max a := by
  induction l with
  | nil => intro a; exact le_refl a
  | cons b l ih =>
    intro a
    exact le_trans (le_max_left a b) (ih (max a b))

/-- C2: for every (x, y) and positive step, runge_kutta_next returns
y + (step/6)(k1 + 2 k2 + 2 k3 + k4) with k1 = derivative(x, y),
k2 = derivative(x + step/2, y + step k1/2),
k3 = derivative(x + step/2, y + step k2/2),
k4 = derivative(x + step, y + step k3). -/
theorem runge_kutta_next_spec (x y step : ℝ) (h : 0 < step) :
    runge_kutta_next step x y =
      y + step / 6 *
        (get_y_prime x y +
         2 * get_y_prime (x + step / 2) (y + step * get_y_prime x y / 2) +
         2 * get_y_prime (x + step / 2)
             (y + step * get_y_prime (x + step / 2)
                 (y + step * get_y_prime x y / 2) / 2) +
         get_y_prime (x + step)
           (y + step * get_y_prime (x + step / 2)
               (y + step * get_y_prime (x + step / 2)
                   (y + step * get_y_prime x y / 2) / 2))) := rfl

/-- Witness for runge_kutta_next_spec at x = 1, y = 0, step = 1. -/
theorem runge_kutta_next_spec_witness :
    (0:ℝ) < 1 ∧
    runge_kutta_next 1 1 0 =
      0 + 1 / 6 *
        (get_y_prime 1 0 +
         2 * get_y_prime (1 + 1 / 2) (0 + 1 * get_y_prime 1 0 / 2) +
         2 * get_y_prime (1 + 1 / 2)
             (0 + 1 * get_y_prime (1 + 1 / 2)
                 (0 + 1 * get_y_prime 1 0 / 2) / 2) +
         get_y_prime (1 + 1)
           (0 + 1 * get_y_prime (1 + 1 / 2)
               (0 + 1 * get_y_prime (1 + 1 / 2)
                   (0 + 1 * get_y_prime 1 0 / 2) / 2))) :=
  ⟨one_pos, runge_kutta_next_spec 1 0 1 one_pos⟩

/-- C4: for every configuration and every update rule, the first recorded
trajectory point sits at x0 and has gte = lte = |exact x0 - y0|, with no
restriction tying y0 to exact x0. -/
theorem initial_point_spec (x0 xEnd y0 step : ℝ) (f : ℝ → ℝ → ℝ) :
    (method_implementation get_y x0 xEnd y0 f step).head? =
      some { x := x0, y := y0,
             lte := |get_y x0 - y0|, gte := |get_y x0 - y0| } := rfl

/-- C5: the derivative evaluation returns y/x + x cos x whenever x is not
zero, and signals a domain error (none, modelling the ZeroDivisionError
raised by the Python division) at x = 0. -/
theorem get_y_prime_checked_spec (x y : ℝ) (hx : x ≠ 0) :
    get_y_prime_checked x y = some (y / x + x * Real.cos x) ∧
    get_y_prime_checked 0 y = none := by
  refine ⟨?_, ?_⟩
  · rw [get_y_prime_checked, if_neg hx]
    rfl
  · rw [get_y_prime_checked, if_pos rfl]

/-- Witness for get_y_prime_checked_spec at x = 1, y = 0. -/
theorem get_y_prime_checked_spec_witness :
    (1:ℝ) ≠ 0 ∧
    (get_y_prime_checked 1 0 = some (0 / 1 + 1 * Real.cos 1) ∧
     get_y_prime_checked 0 0 = none) :=
  ⟨one_ne_zero, get_y_prime_checked_spec 1 0 one_ne_zero⟩

/-- C10: the value returned by the runner in max-GTE mode is at least the
seed error |exact x0 - y0|: the seed gte is the start of the maximum fold,
so the maximum always exists and is bounded below by it. -/
theorem max_gte_ge_seed_error {α : Type} [LinearOrderedField α] [FloorRing α]
    (e : α → α) (x0 xEnd y0 : α) (f : α → α → α) (step : α) :
    |e x0 - y0| ≤ method_implementation_max_gte e x0 xEnd y0 f step := by
  have h := le_foldl_max
    ((method_loop e f xEnd step (x0 + step) x0 y0).map (fun p => p.gte))
    (get_gte y0 (e x0))
  simpa [method_implementation_max_gte, get_gte] using h

/-- C3: every non-initial trajectory point carries
lte = |exact(xNext) - f(x, exact(x))|, the absolute deviation of one
integrator step started from the exact value at the previous point, for
any update rule f (in particular the three methods). -/
theorem lte_from_exact {α : Type} [LinearOrderedField α] [FloorRing α]
    (e : α → α) (x0 xEnd y0 : α) (f : α → α → α) (step : α) (i : ℕ)
    (p q : TrajPoint α)
    (hp : (method_implementation e x0 xEnd y0 f step).get? (i + 1) = some p)
    (hq : (method_implementation e x0 xEnd y0 f step).get? i = some q) :
    p.lte = |e p.x - f q.x (e q.x)| := by
  cases i with
  | zero =>
    rw [method_implementation, List.get?_cons_succ] at hp
    rw [method_implementation, List.get?_cons_zero] at hq
    have hq' := Option.some.inj hq
    have hp' := method_loop_first e f xEnd step (x0 + step) x0 y0 p hp
    rw [hp', ← hq']
    simp [get_lte]
  | succ n =>
    rw [method_implementation, List.get?_cons_succ] at hp hq
    exact method_loop_lte_chain e f xEnd step n (x0 + step) x0 y0 p q hp hq

/-- Witness for lte_from_exact on a rational instance. -/
theorem lte_from_exact_witness :
    ((method_implementation (fun _ : ℚ => 0) 0 1 0 (fun a b => b + a) 1).get? 1 =
        some ⟨1, 0, 0, 0⟩) ∧
    ((method_implementation (fun _ : ℚ => 0) 0 1 0 (fun a b => b + a) 1).get? 0 =
        some ⟨0, 0, 0, 0⟩) ∧
    (0:ℚ) = |(0:ℚ) - (0 + 0)| := by
  have h1 : (method_implementation (fun _ : ℚ => 0) 0 1 0 (fun a b => b + a) 1).get? 1 =
      some ⟨1, 0, 0, 0⟩ := by
    rw [method_implementation, List.get?_cons_succ]
    rw [method_loop_pos (fun _ : ℚ => 0) (fun a b => b + a) 1 1 (0 + 1) 0 0
      one_pos (by show (0:ℚ) + 1 ≤ 1 + 1; norm_num)]
    rw [List.get?_cons_zero]
    norm_num [get_lte, get_gte]
  have h2 : (method_implementation (fun _ : ℚ => 0) 0 1 0 (fun a b => b + a) 1).get? 0 =
      some ⟨0, 0, 0, 0⟩ := by
    rw [method_implementation, List.get?_cons_zero]
    norm_num [get_lte, get_gte]
  refine ⟨h1, h2, ?_⟩
  have h3 := lte_from_exact (fun _ : ℚ => 0) 0 1 0 (fun a b => b + a) 1 0
    ⟨1, 0, 0, 0⟩ ⟨0, 0, 0, 0⟩ h1 h2
  simpa using h3

/-- C6 fails as stated: with x0 = 1, xEnd = 2, y0 = 1 and the Euler update
at step 3 (a step larger than the interval), the runner still emits a
second point at x0 + step, so the trajectory is not single-point. -/
theorem single_point_claim_false :
    (0:ℝ) < 3 ∧ (2:ℝ) - 1 ≤ 3 ∧
    (method_implementation get_y 1 2 1 (euler_next 3) 3).length ≠ 1 := by
  refine ⟨by norm_num, by norm_num, ?_⟩
  rw [length_method_implementation get_y (euler_next 3) 1 2 1 3
    (by norm_num) (by norm_num)]
  have h1 : ⌊((2:ℝ) - 1) / 3⌋ = 0 := by
    rw [Int.floor_eq_zero_iff, Set.mem_Ico]
    constructor <;> norm_num
  rw [h1]
  omega

/-- C6 amended: with 0 < step, x0 ≤ xEnd and step at least the interval
length, the runner produces a degenerate trajectory of exactly two points
when step exceeds the interval length (the seed at x0 plus one
overshooting point at x0 + step), and exactly three points when step
equals the interval length; in either case at least two and at most three
points, so never a single-point trajectory, and no error occurs. -/
theorem degenerate_trajectory_two_or_three {α : Type}
    [LinearOrderedField α] [FloorRing α]
    (e : α → α) (x0 xEnd y0 : α) (f : α → α → α) (step : α)
    (hs : 0 < step) (hx : x0 ≤ xEnd) (hb : xEnd - x0 ≤ step) :
    (xEnd - x0 < step →
      (method_implementation e x0 xEnd y0 f step).length = 2) ∧
    (xEnd - x0 = step →
      (method_implementation e x0 xEnd y0 f step).length = 3) ∧
    2 ≤ (method_implementation e x0 xEnd y0 f step).length ∧
    (method_implementation e x0 xEnd y0 f step).length ≤ 3 := by
  have h := length_method_implementation e f x0 xEnd y0 step hs hx
  have h0 : (0:α) ≤ (xEnd - x0) / step := div_nonneg (by linarith) hs.le
  have hA : xEnd - x0 < step → ⌊(xEnd - x0) / step⌋ = 0 := by
    intro hlt
    rw [Int.floor_eq_zero_iff, Set.mem_Ico]
    exact ⟨h0, (div_lt_one hs).mpr hlt⟩
  have hB : xEnd - x0 = step → ⌊(xEnd - x0) / step⌋ = 1 := by
    intro heq
    rw [heq, div_self hs.ne', Int.floor_one]
  refine ⟨?_, ?_, ?_⟩
  · intro hlt
    rw [h, hA hlt]
    omega
  · intro heq
    rw [h, hB heq]
    omega
  · rcases lt_or_eq_of_le hb with hlt | heq
    · rw [h, hA hlt]
      omega
    · rw [h, hB heq]
      omega

/-- Witness for degenerate_trajectory_two_or_three on a rational instance
with step 2 on the interval from 0 to 1. -/
theorem degenerate_trajectory_two_or_three_witness :
    (0:ℚ) < 2 ∧ (0:ℚ) ≤ 1 ∧ (1:ℚ) - 0 ≤ 2 ∧
    (((1:ℚ) - 0 < 2 →
        (method_implementation (fun _ : ℚ => 0) 0 1 0 (fun _ _ => 0) 2).length = 2) ∧
     ((1:ℚ) - 0 = 2 →
        (method_implementation (fun _ : ℚ => 0) 0 1 0 (fun _ _ => 0) 2).length = 3) ∧
     2 ≤ (method_implementation (fun _ : ℚ => 0) 0 1 0 (fun _ _ => 0) 2).length ∧
     (method_implementation (fun _ : ℚ => 0) 0 1 0 (fun _ _ => 0) 2).length ≤ 3) :=
  ⟨by norm_num, by norm_num, by norm_num,
    degenerate_trajectory_two_or_three (fun _ => 0) 0 1 0 (fun _ _ => 0) 2
      (by norm_num) (by norm_num) (by norm_num)⟩

/-- C7: the number of points produced, seed included, is
⌊(xEnd - x0)/step⌋ + 2 exactly; in particular it equals the claimed
⌊(xEnd - x0)/step⌋ + 1 up to the allowed slack of one. -/
theorem trajectory_point_count {α : Type} [LinearOrderedField α] [FloorRing α]
    (e : α → α) (x0 xEnd y0 : α) (f : α → α → α) (step : α)
    (hs : 0 < step) (hx : x0 < xEnd) :
    (method_implementation e x0 xEnd y0 f step).length =
      (⌊(xEnd - x0) / step⌋).toNat + 2 ∧
    (⌊(xEnd - x0) / step⌋).toNat + 1 ≤
      (method_implementation e x0 xEnd y0 f step).length ∧
    (method_implementation e x0 xEnd y0 f step).length ≤
      (⌊(xEnd - x0) / step⌋).toNat + 1 + 1 := by
  have h := length_method_implementation e f x0 xEnd y0 step hs hx.le
  omega

/-- Witness for trajectory_point_count on a rational instance. -/
theorem trajectory_point_count_witness :
    (0:ℚ) < 1 ∧ (0:ℚ) < 1 ∧
    ((method_implementation (fun _ : ℚ => 0) 0 1 0 (fun _ _ => 0) 1).length =
        (⌊((1:ℚ) - 0) / 1⌋).toNat + 2 ∧
      (⌊((1:ℚ) - 0) / 1⌋).toNat + 1 ≤
        (method_implementation (fun _ : ℚ => 0) 0 1 0 (fun _ _ => 0) 1).length ∧
      (method_implementation (fun _ : ℚ => 0) 0 1 0 (fun _ _ => 0) 1).length ≤
        (⌊((1:ℚ) - 0) / 1⌋).toNat + 1 + 1) :=
  ⟨one_pos, one_pos,
    trajectory_point_count (fun _ => 0) 0 1 0 (fun _ _ => 0) 1 one_pos one_pos⟩

/-- C9: one run emits at most (xEnd - x0)/step + 2 points, and the sweep
performs exactly n - 1 runs (n, n-1, ..., 2), both finite. -/
theorem bounded_work {α : Type} [LinearOrderedField α] [FloorRing α]
    (e : α → α) (x0 xEnd y0 : α) (f : α → α → α) (step : α) (n : ℕ)
    (hs : 0 < step) (hx : x0 < xEnd) :
    ((method_implementation e x0 xEnd y0 f step).length : α) ≤
      (xEnd - x0) / step + 2 ∧
    (gte_investigation e x0 xEnd y0 f n).length = n - 1 := by
  constructor
  · rw [length_method_implementation e f x0 xEnd y0 step hs hx.le]
    have h0 : 0 ≤ ⌊(xEnd - x0) / step⌋ :=
      Int.floor_nonneg.mpr (div_nonneg (by linarith) hs.le)
    have hfl := Int.floor_le ((xEnd - x0) / step)
    have h3 : ((⌊(xEnd - x0) / step⌋.toNat : ℕ) : α) =
        ((⌊(xEnd - x0) / step⌋ : ℤ) : α) := by
      norm_cast
      omega
    push_cast
    rw [h3]
    linarith
  · unfold gte_investigation sweep_counts
    rw [List.length_map, List.length_map, List.length_range]

/-- Witness for bounded_work on a rational instance with n = 10. -/
theorem bounded_work_witness :
    (0:ℚ) < 1 ∧ (0:ℚ) < 1 ∧
    (((method_implementation (fun _ : ℚ => 0) 0 1 0 (fun _ _ => 0) 1).length : ℚ) ≤
        ((1:ℚ) - 0) / 1 + 2 ∧
      (gte_investigation (fun _ : ℚ => 0) 0 1 0 (fun _ _ => 0) 10).length = 10 - 1) :=
  ⟨one_pos, one_pos,
    bounded_work (fun _ => 0) 0 1 0 (fun _ _ => 0) 1 10 one_pos one_pos⟩

/-- C1 fails on the code: in the sweep, calculate_next is a bound method
whose update uses the step stored at construction time (self.step), not the
step derived per sweep iteration.  At the default configuration (x0 = π,
xEnd = 4π, y0 = 1, constructed step 1/2, maximum count 10) the first sweep
sample derives step (4π - π)/10, yet the trajectory run it performs updates
y with euler_next at stored step 1/2, which differs from the update at the
derived step. -/
theorem sweep_update_uses_stored_step :
    ((gte_investigation get_y Real.pi (4 * Real.pi) 1 (euler_next (1/2)) 10).head?.map
        Prod.fst = some ((4 * Real.pi - Real.pi) / 10)) ∧
    (((method_implementation get_y Real.pi (4 * Real.pi) 1 (euler_next (1/2))
          ((4 * Real.pi - Real.pi) / 10)).get? 1).map TrajPoint.y =
        some (euler_next (1/2) Real.pi 1)) ∧
    euler_next (1/2) Real.pi 1 ≠ euler_next ((4 * Real.pi - Real.pi) / 10) Real.pi 1 := by
  have hπ3 := Real.pi_gt_three
  have hπ0 : (0:ℝ) < Real.pi := by linarith
  refine ⟨?_, ?_, ?_⟩
  · unfold gte_investigation
    have hsc : sweep_counts 10 = [10, 9, 8, 7, 6, 5, 4, 3, 2] := by decide
    rw [hsc, List.map_cons, List.head?_cons]
    norm_num
  · rw [method_implementation, List.get?_cons_succ]
    have hs : 0 < (4 * Real.pi - Real.pi) / 10 := div_pos (by linarith) (by norm_num)
    have hk : loop_cond (4 * Real.pi) ((4 * Real.pi - Real.pi) / 10)
        (Real.pi + (4 * Real.pi - Real.pi) / 10) := by
      show Real.pi + (4 * Real.pi - Real.pi) / 10 ≤
        4 * Real.pi + (4 * Real.pi - Real.pi) / 10
      linarith
    rw [method_loop_pos get_y (euler_next (1/2)) (4 * Real.pi)
      ((4 * Real.pi - Real.pi) / 10) (Real.pi + (4 * Real.pi - Real.pi) / 10)
      Real.pi 1 hs hk]
    rw [List.get?_cons_zero]
    rfl
  · intro heq
    unfold euler_next get_y_prime at heq
    rw [Real.cos_pi] at heq
    set c := 1 / Real.pi - Real.pi with hc
    have hcc : 1 / Real.pi + Real.pi * (-1) = c := by rw [hc]; ring
    rw [hcc] at heq
    have hcneg : c < 0 := by
      rw [hc]
      have h1 : (1:ℝ) / Real.pi < 1 := by
        rw [div_lt_one hπ0]
        linarith
      linarith
    have heq' : 1 / 2 * c = (4 * Real.pi - Real.pi) / 10 * c := by linarith
    have h5 := mul_right_cancel₀ hcneg.ne heq'
    linarith

/-- C8 exhibit: no configuration validation exists in the code, and with a
negative step (an invalid configuration the spec says must be rejected
before any run) the trajectory loop guard k <= xEnd + step holds at every
iteration: after n iterations k equals x0 + step + n*step and the guard is
still true, so the started run never terminates instead of failing fast. -/
theorem invalid_step_never_rejected {α : Type} [LinearOrderedField α]
    (x0 xEnd step : α) (n : ℕ) (h1 : step < 0) (h2 : x0 ≤ xEnd) :
    loop_cond xEnd step (x0 + step + (n : α) * step) := by
  show x0 + step + (n : α) * step ≤ xEnd + step
  have h3 : 0 ≤ (n : α) * (-step) := mul_nonneg (Nat.cast_nonneg n) (by linarith)
  have h4 : (n : α) * (-step) = -((n : α) * step) := by ring
  linarith

/-- Witness for invalid_step_never_rejected at x0 = 0, xEnd = 1,
step = -1, after five iterations. -/
theorem invalid_step_never_rejected_witness :
    (-1:ℚ) < 0 ∧ (0:ℚ) ≤ 1 ∧
    loop_cond (1:ℚ) (-1) (0 + -1 + ((5:ℕ) : ℚ) * -1) :=
  ⟨by norm_num, by norm_num,
    invalid_step_never_rejected 0 1 (-1) 5 (by norm_num) (by norm_num)⟩

end NumMethod
